import Mathlib

/-!
Verification of the BPE tokenizer in `lecture_1_tokenizer/tokenizers.py`
(`BPETokenizer` together with the `encode`/`decode` methods it inherits
from `BaseTokenizer`).

Python strings are modelled as `List Char`; Python dicts (`token_to_id`,
`id_to_token`, `merges`, the `Counter` of word units and the
`defaultdict(int)` of pair statistics) are modelled as association lists
with Python's insertion-order semantics: assignment updates an existing
key in place and appends a fresh key at the end, and iteration follows
the list.  Inside `train` the Python code keys the word-unit counter by
the space-joined symbol string `' '.join(symbols)`; since every symbol
produced during training is a nonempty space-free string, that keying is
in bijection with the symbol list itself, and we key word units directly
by `List Sym`, materialising the joined string with `keyString` exactly
where the Python code manipulates it as a string
(`''.join(vocab.keys())` on lines 185 and 188).
-/

set_option maxHeartbeats 1000000

namespace BPE

/-- A Python string (symbol / token / text) as a list of characters. -/
abbrev Sym : Type := List Char

/-- Dict lookup `d.get(k)`: first entry with the given key. -/
def alookup {α β : Type} [DecidableEq α] (k : α) : List (α × β) → Option β
  | [] => none
  | (a, b) :: rest => if a = k then some b else alookup k rest

/-- Dict assignment `d[k] = v`: update an existing key in place,
append a fresh key at the end (Python insertion order). -/
def ainsert {α β : Type} [DecidableEq α] (k : α) (v : β) : List (α × β) → List (α × β)
  | [] => [(k, v)]
  | (a, b) :: rest => if a = k then (k, v) :: rest else (a, b) :: ainsert k v rest

/-- `d[k] += n` on a `Counter` / `defaultdict(int)`: a missing key
counts as 0 and is appended at the end. -/
def aincBy {α : Type} [DecidableEq α] (k : α) (n : Nat) : List (α × Nat) → List (α × Nat)
  | [] => [(k, n)]
  | (a, m) :: rest => if a = k then (a, m + n) :: rest else (a, m) :: aincBy k n rest

/-- Helper for `splitWords`: accumulates the current word (reversed). -/
def splitWordsAux : List Char → List Char → List (List Char)
  | [], acc => if acc.isEmpty then [] else [acc.reverse]
  | c :: rest, acc =>
    if c.isWhitespace then
      if acc.isEmpty then splitWordsAux rest [] else acc.reverse :: splitWordsAux rest []
    else
      splitWordsAux rest (c :: acc)

/-- Python `text.split()`: split on whitespace runs, dropping empty words. -/
def splitWords (t : List Char) : List (List Char) := splitWordsAux t []

/-- Python `' '.join(symbols)` — the string key used for a word unit. -/
def keyString (ss : List Sym) : List Char := (List.intersperse [' '] ss).flatten

/-- Insert a character into an ascending list, before the first
greater-or-equal element. -/
def insertSorted (c : Char) : List Char → List Char
  | [] => [c]
  | x :: xs => if c ≤ x then c :: x :: xs else x :: insertSorted c xs

/-- Python `sorted(...)` on characters (ascending by code point),
as insertion sort; on the duplicate-free lists `train` sorts, this is
the unique ascending arrangement. -/
def sortChars (l : List Char) : List Char := l.foldr insertSorted []

/-- The `<UNK>` marker string. -/
def unkSym : Sym := ['<', 'U', 'N', 'K', '>']

/-- The state of a `BPETokenizer` object: the configured `vocab_size`,
the two vocabulary dicts, `unk_id` and the `merges` dict. -/
structure BPEState : Type where
  vocab_size : Nat
  token_to_id : List (Sym × Nat)
  id_to_token : List (Nat × Sym)
  unk_id : Nat
  merges : List ((Sym × Sym) × Sym)
  deriving DecidableEq, Repr

/-- `BPETokenizer.__init__(vocab_size)`: only the `<UNK>` sentinel is mapped. -/
def initState (vs : Nat) : BPEState :=
  { vocab_size := vs
    token_to_id := [(unkSym, 0)]
    id_to_token := [(0, unkSym)]
    unk_id := 0
    merges := [] }

/-- The adjacent pairs of a symbol sequence
(`(symbols[i], symbols[i+1])` for `i < len(symbols) - 1`). -/
def pairsOf (ss : List Sym) : List (Sym × Sym) := ss.zip ss.tail

/-- `BPETokenizer._get_stats`: aggregate frequency of each adjacent pair,
tallied in Python insertion order. -/
def getStats (vocab : List (List Sym × Nat)) : List ((Sym × Sym) × Nat) :=
  vocab.foldl (fun acc u => (pairsOf u.1).foldl (fun a p => aincBy p u.2 a) acc) []

/-- The scan of `BPETokenizer._merge_vocab` over one word unit, with the
current symbol `x` held separately so the recursion is structural:
replace non-overlapping left-to-right adjacent occurrences of `(a, b)`
by `repl`. -/
def mergePartsGo (a b repl : Sym) (x : Sym) : List Sym → List Sym
  | [] => [x]
  | y :: rest =>
    if x = a ∧ y = b then
      match rest with
      | [] => [repl]
      | z :: rest2 => repl :: mergePartsGo a b repl z rest2
    else x :: mergePartsGo a b repl y rest

/-- The full scan of `BPETokenizer._merge_vocab` over one word unit. -/
def mergeParts (a b repl : Sym) : List Sym → List Sym
  | [] => []
  | x :: rest => mergePartsGo a b repl x rest

/-- `BPETokenizer._merge_vocab`: rebuild the word-unit dict, rewriting
every unit with the selected pair (`replacement = ''.join(pair)`). -/
def mergeVocab (p : Sym × Sym) (vocab : List (List Sym × Nat)) : List (List Sym × Nat) :=
  vocab.foldl (fun nv u => ainsert (mergeParts p.1 p.2 (p.1 ++ p.2) u.1) u.2 nv) []

/-- Python `max(pairs, key=pairs.get)` on a nonempty dict: the first key
(in insertion order) whose value is maximal. -/
def maxPair (p0 : (Sym × Sym) × Nat) (rest : List ((Sym × Sym) × Nat)) : Sym × Sym :=
  (rest.foldl (fun b q => if b.2 < q.2 then q else b) p0).1

/-- The word-unit counter built by the first loop of `train`:
each word becomes the sequence of its single-character symbols. -/
def buildVocab0 (words : List (List Char)) : List (List Sym × Nat) :=
  words.foldl (fun v w => aincBy (w.map (fun c => [c])) 1 v) []

/-- The merge loop of `BPETokenizer.train` (the `for i in range(...)` on
line 194), with the iteration count made explicit as fuel. -/
def trainLoop : Nat → List (List Sym × Nat) → BPEState → BPEState
  | 0, _, st => st
  | n + 1, vocab, st =>
    match getStats vocab with
    | [] => st
    | p0 :: rest =>
      let best := maxPair p0 rest
      let vocab2 := mergeVocab best vocab
      let newTok := best.1 ++ best.2
      let st2 := { st with merges := ainsert best newTok st.merges }
      let st3 :=
        if (alookup newTok st2.token_to_id).isSome then st2
        else
          { st2 with
            token_to_id := ainsert newTok (st2.token_to_id.length + 1) st2.token_to_id
            id_to_token := ainsert (st2.token_to_id.length + 1) newTok st2.id_to_token }
      if st3.vocab_size ≤ st3.token_to_id.length then st3
      else trainLoop n vocab2 st3

/-- The words of the whole corpus, in corpus order
(the nested `for text in texts: for word in text.split()`). -/
def trainWords (texts : List (List Char)) : List (List Char) :=
  (texts.map splitWords).flatten

/-- `''.join(vocab.keys())` in `train`: the concatenation of all the
space-joined word-unit key strings.  Because the keys are space-joined,
this contains the character `' '` whenever some word has two or more
characters. -/
def trainAllChars (texts : List (List Char)) : List Char :=
  ((buildVocab0 (trainWords texts)).map (fun u => keyString u.1)).flatten

/-- The `enumerate(sorted(set(...)))` loop of `train`: insert each base
character `char` with id `i + 1`. -/
def insertBase (st : BPEState) (cs : List Char) : BPEState :=
  cs.enum.foldl
    (fun s ic =>
      { s with
        token_to_id := ainsert [ic.2] (ic.1 + 1) s.token_to_id
        id_to_token := ainsert (ic.1 + 1) [ic.2] s.id_to_token })
    st

/-- `BPETokenizer.train(texts, num_merges)`.  The local variable
`vocab_size` of line 185 is `(trainAllChars texts).dedup.length`
(`len(set(...))`), and the loop bound is
`min(num_merges, self.vocab_size - vocab_size)`; Python's negative bound
and Nat's truncated subtraction both yield an empty range.  The state
carried in is not reset. -/
def train (st : BPEState) (texts : List (List Char)) (num_merges : Nat) : BPEState :=
  trainLoop (min num_merges (st.vocab_size - (trainAllChars texts).dedup.length))
    (buildVocab0 (trainWords texts))
    (insertBase st (sortChars (trainAllChars texts).dedup))

/-- The leftmost index whose adjacent pair is a key of `merges`
(`min(pairs.keys())` over the matches collected in `tokenize`). -/
def findMatch (merges : List ((Sym × Sym) × Sym)) : List Sym → Option Nat
  | [] => none
  | x :: rest =>
    match rest with
    | [] => none
    | y :: _ =>
      if (alookup (x, y) merges).isSome then some 0
      else (findMatch merges rest).map (· + 1)

/-- The rebuild loop inside `tokenize`: at index `i` emit `repl` and skip
two positions, elsewhere copy. -/
def mergeAt (repl : Sym) : Nat → List Sym → List Sym
  | _, [] => []
  | 0, _ :: rest => repl :: rest.drop 1
  | n + 1, x :: rest => x :: mergeAt repl n rest

/-- The `while True` loop of `BPETokenizer.tokenize` on one word, with
fuel; each iteration merges at the leftmost matching position and
restarts.  `segmentWord` is called with fuel `len(word)`, which C10
shows suffices to reach the no-match fixpoint of the Python loop. -/
def segmentWord (merges : List ((Sym × Sym) × Sym)) : Nat → List Sym → List Sym
  | 0, toks => toks
  | fuel + 1, toks =>
    match findMatch merges toks with
    | none => toks
    | some i =>
      let repl := (alookup (toks.getD i [], toks.getD (i + 1) []) merges).getD []
      segmentWord merges fuel (mergeAt repl i toks)

/-- `BPETokenizer.tokenize(text)`: split into words, segment each word
from its character sequence, concatenate in word order. -/
def tokenize (st : BPEState) (text : List Char) : List Sym :=
  ((splitWords text).map
    (fun w => segmentWord st.merges w.length (w.map (fun c => [c])))).flatten

/-- `BaseTokenizer.encode`: `token_to_id.get(token, unk_id)` per token. -/
def encode (st : BPEState) (text : List Char) : List Nat :=
  (tokenize st text).map (fun t => (alookup t st.token_to_id).getD st.unk_id)

/-- The symbol list recovered by `BaseTokenizer.decode` before joining:
`id_to_token.get(id, "<UNK>")` per id. -/
def decodedSyms (st : BPEState) (ids : List Nat) : List Sym :=
  ids.map (fun k => (alookup k st.id_to_token).getD unkSym)

/-- `BaseTokenizer.decode`: `''.join(tokens)`. -/
def decode (st : BPEState) (ids : List Nat) : List Char :=
  (decodedSyms st ids).flatten

/-- The adjacent pair of a symbol sequence at position `i`. -/
def pairAt (toks : List Sym) (i : Nat) : Sym × Sym :=
  (toks.getD i [], toks.getD (i + 1) [])

/-- Position `i` of `toks` carries an adjacent pair that matches some
merge rule (the membership test `pair in self.merges` of `tokenize`). -/
def MatchAt (merges : List ((Sym × Sym) × Sym)) (toks : List Sym) (i : Nat) : Prop :=
  i + 1 < toks.length ∧ (alookup (pairAt toks i) merges).isSome = true

/-- Specification of the per-word segmentation loop, as written in the
spec: while at least one adjacent pair matches some merge rule
(regardless of rank), apply the merge at the leftmost matching position
only and restart the scan; stop when no adjacent pair matches. -/
inductive SegRel (merges : List ((Sym × Sym) × Sym)) : List Sym → List Sym → Prop where
  | done (toks : List Sym) (h : ∀ i, ¬ MatchAt merges toks i) : SegRel merges toks toks
  | step (toks out : List Sym) (i : Nat) (r : Sym)
      (hm : MatchAt merges toks i)
      (hmin : ∀ j, j < i → ¬ MatchAt merges toks j)
      (hr : alookup (pairAt toks i) merges = some r)
      (hnext : SegRel merges (toks.take i ++ r :: toks.drop (i + 2)) out) :
      SegRel merges toks out

/-- All characters of the corpus's whitespace-delimited words,
in corpus order. -/
def baseCharsOf (texts : List (List Char)) : List Char :=
  ((texts.map splitWords).flatten).flatten

/-- The pair `(a, b)` occurs adjacently in `l` at position `i`. -/
def OccursAt (a b : Sym) (l : List Sym) (i : Nat) : Prop :=
  i + 1 < l.length ∧ l.getD i [] = a ∧ l.getD (i + 1) [] = b


/-! ### Helper lemmas -/

/-- Induction on a list by zero, one, and at-least-two elements, with
induction hypotheses for both the tail and the tail's tail. -/
theorem twoStepInduction {α : Type} {P : List α → Prop}
    (h0 : P []) (h1 : ∀ x, P [x])
    (h2 : ∀ x y rest, P rest → P (y :: rest) → P (x :: y :: rest)) :
    ∀ l, P l
  | [] => h0
  | [x] => h1 x
  | x :: y :: rest =>
    h2 x y rest (twoStepInduction h0 h1 h2 rest) (twoStepInduction h0 h1 h2 (y :: rest))

theorem alookup_mem {α β : Type} [DecidableEq α] {k : α} {v : β} :
    ∀ {l : List (α × β)}, alookup k l = some v → (k, v) ∈ l := by
  intro l
  induction l with
  | nil => intro h; simp [alookup] at h
  | cons hd tl ih =>
    cases hd with
    | mk a b =>
      intro h
      by_cases hk : a = k
      · subst hk
        have hb : b = v := by simpa [alookup] using h
        subst hb
        exact List.mem_cons_self _ _
      · simp only [alookup, if_neg hk] at h
        exact List.mem_cons_of_mem _ (ih h)

theorem alookup_eq_none {α β : Type} [DecidableEq α] {k : α} :
    ∀ {l : List (α × β)}, k ∉ l.map Prod.fst → alookup k l = none := by
  intro l
  induction l with
  | nil => intro _; rfl
  | cons hd tl ih =>
    intro h
    simp only [List.map_cons, List.mem_cons] at h
    push_neg at h
    cases hd with
    | mk a b =>
      simp only [alookup, if_neg (fun hak : a = k => h.1 hak.symm)]
      exact ih h.2

theorem ainsert_of_none {α β : Type} [DecidableEq α] {k : α} (v : β) :
    ∀ {l : List (α × β)}, alookup k l = none → ainsert k v l = l ++ [(k, v)] := by
  intro l
  induction l with
  | nil => intro _; rfl
  | cons hd tl ih =>
    intro h
    cases hd with
    | mk a b =>
      by_cases hak : a = k
      · simp [alookup, hak] at h
      · simp only [alookup, if_neg hak] at h
        simp only [ainsert, if_neg hak, List.cons_append, ih h]

theorem alookup_ainsert_isSome {α β : Type} [DecidableEq α] {k k' : α} {v : β} :
    ∀ {l : List (α × β)}, (alookup k l).isSome = true →
      (alookup k (ainsert k' v l)).isSome = true := by
  intro l
  induction l with
  | nil => intro h; simp [alookup] at h
  | cons hd tl ih =>
    intro h
    cases hd with
    | mk a b =>
      by_cases hk' : a = k'
      · by_cases hk : k' = k
        · simp [ainsert, alookup, hk', hk]
        · simp only [ainsert, if_pos hk']
          simp only [alookup, if_neg hk]
          simp only [alookup, hk', if_neg hk] at h
          exact h
      · simp only [ainsert, if_neg hk']
        by_cases hk : a = k
        · simp [alookup, hk]
        · simp only [alookup, if_neg hk] at h ⊢
          exact ih h

theorem mem_keys_aincBy {α : Type} [DecidableEq α] {x k : α} {n : Nat} :
    ∀ {l : List (α × Nat)},
      (x ∈ (aincBy k n l).map Prod.fst ↔ x ∈ l.map Prod.fst ∨ x = k) := by
  intro l
  induction l with
  | nil => simp [aincBy]
  | cons hd tl ih =>
    cases hd with
    | mk a m =>
      by_cases hk : a = k
      · subst hk
        simp [aincBy, or_comm, or_left_comm]
      · simp only [aincBy, if_neg hk, List.map_cons, List.mem_cons, ih]
        tauto


theorem not_matchAt_short {merges : List ((Sym × Sym) × Sym)} {toks : List Sym}
    (h : toks.length ≤ 1) (i : Nat) : ¬ MatchAt merges toks i := by
  intro hm
  have := hm.1
  omega

theorem matchAt_cons_succ {merges : List ((Sym × Sym) × Sym)} {x : Sym}
    {toks : List Sym} {j : Nat} :
    MatchAt merges (x :: toks) (j + 1) ↔ MatchAt merges toks j := by
  constructor
  · rintro ⟨h1, h2⟩
    refine ⟨by simp only [List.length_cons] at h1; omega, ?_⟩
    simpa [pairAt, List.getD_cons_succ] using h2
  · rintro ⟨h1, h2⟩
    refine ⟨by simp only [List.length_cons]; omega, ?_⟩
    simpa [pairAt, List.getD_cons_succ] using h2

theorem matchAt_zero {merges : List ((Sym × Sym) × Sym)} {x y : Sym} {rest : List Sym} :
    MatchAt merges (x :: y :: rest) 0 ↔ (alookup (x, y) merges).isSome = true := by
  constructor
  · rintro ⟨_, h2⟩
    simpa [pairAt] using h2
  · intro h
    refine ⟨by simp only [List.length_cons]; omega, ?_⟩
    simpa [pairAt] using h

theorem findMatch_short {merges : List ((Sym × Sym) × Sym)} {toks : List Sym}
    (h : toks.length ≤ 1) : findMatch merges toks = none := by
  match toks with
  | [] => rfl
  | [x] => rfl
  | x :: y :: rest => simp only [List.length_cons] at h; omega

theorem findMatch_none {merges : List ((Sym × Sym) × Sym)} :
    ∀ {toks : List Sym}, findMatch merges toks = none → ∀ i, ¬ MatchAt merges toks i := by
  intro toks
  induction toks using twoStepInduction with
  | h0 => intro _ i; exact not_matchAt_short (by simp) i
  | h1 x => intro _ i; exact not_matchAt_short (by simp) i
  | h2 x y rest ih ihy =>
    intro h i
    cases hiso : (alookup (x, y) merges).isSome with
    | true => simp [findMatch, hiso] at h
    | false =>
      have hy : findMatch merges (y :: rest) = none := by
        simp only [findMatch, hiso, Bool.false_eq_true, if_false] at h
        exact Option.map_eq_none'.1 h
      cases i with
      | zero => intro hc; rw [matchAt_zero] at hc; rw [hiso] at hc; exact Bool.false_ne_true hc
      | succ j => intro hc; exact ihy hy j (matchAt_cons_succ.1 hc)

theorem findMatch_some {merges : List ((Sym × Sym) × Sym)} :
    ∀ {toks : List Sym} {i : Nat}, findMatch merges toks = some i →
      MatchAt merges toks i ∧ ∀ j, j < i → ¬ MatchAt merges toks j := by
  intro toks
  induction toks using twoStepInduction with
  | h0 => intro i h; simp [findMatch] at h
  | h1 x => intro i h; simp [findMatch] at h
  | h2 x y rest ih ihy =>
    intro i h
    cases hiso : (alookup (x, y) merges).isSome with
    | true =>
      have h0 : (0 : Nat) = i := by simpa [findMatch, hiso] using h
      subst h0
      exact ⟨matchAt_zero.2 hiso, fun j hj => absurd hj (Nat.not_lt_zero j)⟩
    | false =>
      simp only [findMatch, hiso, Bool.false_eq_true, if_false, Option.map_eq_some'] at h
      obtain ⟨i', hi', rfl⟩ := h
      obtain ⟨hm, hmin⟩ := ihy hi'
      refine ⟨matchAt_cons_succ.2 hm, ?_⟩
      intro j hj
      cases j with
      | zero =>
        intro hc
        rw [matchAt_zero] at hc
        rw [hiso] at hc
        exact Bool.false_ne_true hc
      | succ j' => intro hc; exact hmin j' (by omega) (matchAt_cons_succ.1 hc)

theorem mergeAt_eq {r : Sym} :
    ∀ {i : Nat} {toks : List Sym}, i + 1 < toks.length →
      mergeAt r i toks = toks.take i ++ r :: toks.drop (i + 2) := by
  intro i
  induction i with
  | zero =>
    intro toks h
    match toks with
    | [] => simp at h
    | [x] => simp at h
    | x :: y :: rest => simp [mergeAt]
  | succ n ih =>
    intro toks h
    match toks with
    | [] => simp at h
    | x :: rest =>
      simp only [List.length_cons] at h
      have := @ih rest (by omega)
      simp only [mergeAt, this, List.take_succ_cons, List.drop_succ_cons, List.cons_append]

theorem length_mergeAt {r : Sym} {i : Nat} {toks : List Sym} (h : i + 1 < toks.length) :
    (mergeAt r i toks).length + 1 = toks.length := by
  rw [mergeAt_eq h]
  simp only [List.length_append, List.length_take, List.length_cons, List.length_drop]
  omega

theorem segmentWord_fixpoint {merges : List ((Sym × Sym) × Sym)} :
    ∀ (fuel : Nat) (toks : List Sym), toks.length ≤ fuel + 1 →
      findMatch merges (segmentWord merges fuel toks) = none := by
  intro fuel
  induction fuel with
  | zero => intro toks h; exact findMatch_short (by simpa using h)
  | succ n ih =>
    intro toks h
    cases hf : findMatch merges toks with
    | none => simp [segmentWord, hf]
    | some i =>
      obtain ⟨hm, -⟩ := findMatch_some hf
      obtain ⟨r, hr⟩ := Option.isSome_iff_exists.1 hm.2
      have hseg : segmentWord merges (n + 1) toks
          = segmentWord merges n (mergeAt r i toks) := by
        simp only [segmentWord, hf]
        have hx : alookup (toks.getD i [], toks.getD (i + 1) []) merges = some r := by
          simpa [pairAt] using hr
        rw [hx]
        rfl
      rw [hseg]
      have hlen := @length_mergeAt r _ _ hm.1
      exact ih _ (by omega)

theorem segmentWord_segRel {merges : List ((Sym × Sym) × Sym)} :
    ∀ (fuel : Nat) (toks : List Sym), toks.length ≤ fuel + 1 →
      SegRel merges toks (segmentWord merges fuel toks) := by
  intro fuel
  induction fuel with
  | zero =>
    intro toks h
    exact SegRel.done toks (fun i => not_matchAt_short (by simpa using h) i)
  | succ n ih =>
    intro toks h
    cases hf : findMatch merges toks with
    | none =>
      have heq : segmentWord merges (n + 1) toks = toks := by simp [segmentWord, hf]
      rw [heq]
      exact SegRel.done toks (findMatch_none hf)
    | some i =>
      obtain ⟨hm, hmin⟩ := findMatch_some hf
      obtain ⟨r, hr⟩ := Option.isSome_iff_exists.1 hm.2
      have hseg : segmentWord merges (n + 1) toks
          = segmentWord merges n (mergeAt r i toks) := by
        simp only [segmentWord, hf]
        have hx : alookup (toks.getD i [], toks.getD (i + 1) []) merges = some r := by
          simpa [pairAt] using hr
        rw [hx]
        rfl
      rw [hseg]
      have hlen := @length_mergeAt r _ _ hm.1
      have hrel := ih (mergeAt r i toks) (by omega)
      nth_rewrite 1 [mergeAt_eq hm.1] at hrel
      exact SegRel.step toks _ i r hm hmin hr hrel


theorem occursAt_cons_succ {a b x : Sym} {l : List Sym} {j : Nat} :
    OccursAt a b (x :: l) (j + 1) ↔ OccursAt a b l j := by
  constructor
  · rintro ⟨h1, h2, h3⟩
    refine ⟨by simp only [List.length_cons] at h1; omega, ?_, ?_⟩
    · simpa [List.getD_cons_succ] using h2
    · simpa [List.getD_cons_succ] using h3
  · rintro ⟨h1, h2, h3⟩
    refine ⟨by simp only [List.length_cons]; omega, ?_, ?_⟩
    · simpa [List.getD_cons_succ] using h2
    · simpa [List.getD_cons_succ] using h3

theorem length_mergePartsGo (a b repl : Sym) :
    ∀ (l : List Sym) (x : Sym), (mergePartsGo a b repl x l).length ≤ l.length + 1 := by
  intro l
  induction l using twoStepInduction with
  | h0 => intro x; simp [mergePartsGo]
  | h1 y =>
    intro x
    by_cases hxy : x = a ∧ y = b
    · simp [mergePartsGo, hxy]
    · simp [mergePartsGo, hxy]
  | h2 y z rest ih ihz =>
    intro x
    by_cases hxy : x = a ∧ y = b
    · simp only [mergePartsGo, if_pos hxy, List.length_cons]
      have := ih z
      omega
    · simp only [mergePartsGo, if_neg hxy, List.length_cons]
      have := ihz y
      simp only [List.length_cons] at this
      omega

theorem length_mergeParts (a b repl : Sym) (l : List Sym) :
    (mergeParts a b repl l).length ≤ l.length := by
  cases l with
  | nil => simp [mergeParts]
  | cons x rest =>
    have := length_mergePartsGo a b repl rest x
    simpa [mergeParts] using this

theorem mergePartsGo_strict (a b repl : Sym) :
    ∀ (l : List Sym) (x : Sym), (∃ i, OccursAt a b (x :: l) i) →
      (mergePartsGo a b repl x l).length ≤ l.length := by
  intro l
  induction l using twoStepInduction with
  | h0 =>
    rintro x ⟨i, hi⟩
    exfalso
    have := hi.1
    simp only [List.length_cons, List.length_nil] at this
    omega
  | h1 y =>
    rintro x ⟨i, hi⟩
    have hi1 := hi.1
    simp only [List.length_cons, List.length_nil] at hi1
    have hiz : i = 0 := by omega
    subst hiz
    have hx : x = a := by simpa using hi.2.1
    have hy : y = b := by simpa using hi.2.2
    simp [mergePartsGo, hx, hy]
  | h2 y z rest ih ihz =>
    rintro x ⟨i, hi⟩
    by_cases hxy : x = a ∧ y = b
    · simp only [mergePartsGo, if_pos hxy, List.length_cons]
      have := length_mergePartsGo a b repl rest z
      omega
    · have hi0 : i ≠ 0 := by
        intro h0
        subst h0
        exact hxy ⟨by simpa using hi.2.1, by simpa using hi.2.2⟩
      obtain ⟨j, rfl⟩ := Nat.exists_eq_succ_of_ne_zero hi0
      have hocc : OccursAt a b (y :: z :: rest) j := occursAt_cons_succ.1 hi
      have := ihz y ⟨j, hocc⟩
      simp only [mergePartsGo, if_neg hxy, List.length_cons]
      simp only [List.length_cons] at this
      omega

theorem mergeParts_strict (a b repl : Sym) {l : List Sym}
    (h : ∃ i, OccursAt a b l i) : (mergeParts a b repl l).length < l.length := by
  cases l with
  | nil =>
    obtain ⟨i, hi⟩ := h
    exfalso
    have := hi.1
    simp at this
  | cons x rest =>
    have := mergePartsGo_strict a b repl rest x h
    simp only [mergeParts, List.length_cons]
    omega

theorem mergePartsGo_flatten (a b : Sym) :
    ∀ (l : List Sym) (x : Sym),
      (mergePartsGo a b (a ++ b) x l).flatten = x ++ l.flatten := by
  intro l
  induction l using twoStepInduction with
  | h0 => intro x; simp [mergePartsGo]
  | h1 y =>
    intro x
    by_cases hxy : x = a ∧ y = b
    · obtain ⟨rfl, rfl⟩ := hxy
      simp [mergePartsGo]
    · simp [mergePartsGo, hxy]
  | h2 y z rest ih ihz =>
    intro x
    by_cases hxy : x = a ∧ y = b
    · obtain ⟨rfl, rfl⟩ := hxy
      simp [mergePartsGo, ih z, List.append_assoc]
    · simp [mergePartsGo, if_neg hxy, ihz y]

theorem mergeParts_flatten (a b : Sym) (l : List Sym) :
    (mergeParts a b (a ++ b) l).flatten = l.flatten := by
  cases l with
  | nil => rfl
  | cons x rest => simpa [mergeParts] using mergePartsGo_flatten a b rest x

theorem foldl_ainsert_map {β : Type} (f : List Sym → List Sym) :
    ∀ (vocab : List (List Sym × β)) (acc : List (List Sym × β)),
      (vocab.map (fun u => f u.1)).Nodup →
      (∀ u ∈ vocab, f u.1 ∉ acc.map Prod.fst) →
      vocab.foldl (fun nv u => ainsert (f u.1) u.2 nv) acc
        = acc ++ vocab.map (fun u => (f u.1, u.2)) := by
  intro vocab
  induction vocab with
  | nil => intro acc _ _; simp
  | cons u rest ih =>
    intro acc hnd hacc
    simp only [List.foldl_cons]
    have h1 : alookup (f u.1) acc = none :=
      alookup_eq_none (hacc u (List.mem_cons_self u rest))
    rw [ainsert_of_none _ h1]
    simp only [List.map_cons, List.nodup_cons] at hnd
    rw [ih (acc ++ [(f u.1, u.2)]) hnd.2 ?_]
    · simp
    · intro v hv
      simp only [List.map_append, List.mem_append]
      push_neg
      constructor
      · exact hacc v (List.mem_cons_of_mem u hv)
      · intro hmem
        simp only [List.map_cons, List.map_nil, List.mem_cons, List.not_mem_nil,
          or_false] at hmem
        have : f u.1 ∈ rest.map (fun u => f u.1) := by
          rw [← hmem]
          exact List.mem_map_of_mem _ hv
        exact hnd.1 this

theorem mergeVocab_eq_map (p : Sym × Sym) (vocab : List (List Sym × Nat))
    (h : (vocab.map (fun u => mergeParts p.1 p.2 (p.1 ++ p.2) u.1)).Nodup) :
    mergeVocab p vocab
      = vocab.map (fun u => (mergeParts p.1 p.2 (p.1 ++ p.2) u.1, u.2)) := by
  unfold mergeVocab
  rw [foldl_ainsert_map _ vocab [] h (by simp)]
  simp


theorem splitWordsAux_flatten :
    ∀ (t acc : List Char),
      (splitWordsAux t acc).flatten
        = acc.reverse ++ t.filter (fun c => !c.isWhitespace) := by
  intro t
  induction t with
  | nil =>
    intro acc
    cases acc with
    | nil => simp [splitWordsAux]
    | cons a as => simp [splitWordsAux]
  | cons c rest ih =>
    intro acc
    by_cases hws : c.isWhitespace
    · cases acc with
      | nil => simp [splitWordsAux, hws, ih]
      | cons a as => simp [splitWordsAux, hws, ih]
    · simp only [splitWordsAux, if_neg hws]
      rw [ih (c :: acc)]
      simp [List.filter_cons, hws]

theorem splitWords_flatten (t : List Char) :
    (splitWords t).flatten = t.filter (fun c => !c.isWhitespace) := by
  simpa using splitWordsAux_flatten t []

theorem splitWordsAux_nil_cons (a : Char) (as : List Char) :
    splitWordsAux [] (a :: as) = [(a :: as).reverse] := rfl

theorem splitWordsAux_ws_nil {c : Char} (rest : List Char)
    (h : c.isWhitespace = true) :
    splitWordsAux (c :: rest) [] = splitWordsAux rest [] := by
  simp [splitWordsAux, h]

theorem splitWordsAux_ws_cons {c : Char} (rest : List Char) (a : Char) (as : List Char)
    (h : c.isWhitespace = true) :
    splitWordsAux (c :: rest) (a :: as)
      = (a :: as).reverse :: splitWordsAux rest [] := by
  simp [splitWordsAux, h]

theorem splitWordsAux_not_ws {c : Char} (rest acc : List Char)
    (h : c.isWhitespace = false) :
    splitWordsAux (c :: rest) acc = splitWordsAux rest (c :: acc) := by
  simp [splitWordsAux, h]

theorem splitWordsAux_no_ws :
    ∀ (t acc : List Char), (∀ c ∈ acc, c.isWhitespace = false) →
      ∀ w ∈ splitWordsAux t acc, ∀ c ∈ w, c.isWhitespace = false := by
  intro t
  induction t with
  | nil =>
    intro acc hacc w hw
    cases acc with
    | nil => simp [splitWordsAux] at hw
    | cons a as =>
      rw [splitWordsAux_nil_cons, List.mem_singleton] at hw
      subst hw
      intro c hc
      exact hacc c (List.mem_reverse.1 hc)
  | cons ch rest ih =>
    intro acc hacc w hw
    cases hws : ch.isWhitespace with
    | true =>
      cases acc with
      | nil =>
        rw [splitWordsAux_ws_nil rest hws] at hw
        exact ih [] (by simp) w hw
      | cons a as =>
        rw [splitWordsAux_ws_cons rest a as hws, List.mem_cons] at hw
        cases hw with
        | inl hw =>
          subst hw
          intro c hc
          exact hacc c (List.mem_reverse.1 hc)
        | inr hw => exact ih [] (by simp) w hw
    | false =>
      rw [splitWordsAux_not_ws rest acc hws] at hw
      refine ih (ch :: acc) ?_ w hw
      intro c hc
      cases List.mem_cons.1 hc with
      | inl h => subst h; exact hws
      | inr h => exact hacc c h

theorem splitWords_no_ws {t : List Char} :
    ∀ w ∈ splitWords t, ∀ c ∈ w, c.isWhitespace = false :=
  splitWordsAux_no_ws t [] (by simp)

theorem splitWordsAux_short :
    ∀ (t acc : List Char), (∀ c ∈ t, c.isWhitespace = false) →
      (splitWordsAux t acc).length ≤ 1 := by
  intro t
  induction t with
  | nil =>
    intro acc _
    cases acc with
    | nil => simp [splitWordsAux]
    | cons a as => simp [splitWordsAux]
  | cons ch rest ih =>
    intro acc h
    have hch : ch.isWhitespace = false := h ch (List.mem_cons_self ch rest)
    simp only [splitWordsAux, hch, Bool.false_eq_true, if_false]
    exact ih (ch :: acc) (fun c hc => h c (List.mem_cons_of_mem ch hc))

theorem exists_ws_of_two_words {t : List Char} (h : 2 ≤ (splitWords t).length) :
    ∃ c ∈ t, c.isWhitespace = true := by
  by_contra hc
  push_neg at hc
  have hall : ∀ c ∈ t, c.isWhitespace = false := by
    intro c hct
    cases hcw : c.isWhitespace with
    | false => rfl
    | true => exact absurd hcw (hc c hct)
  have := splitWordsAux_short t [] hall
  rw [splitWords] at h
  omega

theorem mem_keys_foldl_aincBy {α : Type} [DecidableEq α] (f : List Char → α) :
    ∀ (ws : List (List Char)) (acc : List (α × Nat)) (x : α),
      (x ∈ (ws.foldl (fun v w => aincBy (f w) 1 v) acc).map Prod.fst
        ↔ x ∈ acc.map Prod.fst ∨ ∃ w ∈ ws, x = f w) := by
  intro ws
  induction ws with
  | nil => simp
  | cons w rest ih =>
    intro acc x
    simp only [List.foldl_cons]
    rw [ih]
    rw [mem_keys_aincBy]
    simp only [List.mem_cons]
    constructor
    · rintro (⟨h | h⟩ | ⟨w2, hw2, h⟩)
      · exact Or.inl h
      · exact Or.inr ⟨w, Or.inl rfl, h⟩
      · exact Or.inr ⟨w2, Or.inr hw2, h⟩
    · rintro (h | ⟨w2, hw2 | hw2, h⟩)
      · exact Or.inl (Or.inl h)
      · subst hw2; exact Or.inl (Or.inr h)
      · exact Or.inr ⟨w2, hw2, h⟩

theorem mem_keys_buildVocab0 {x : List Sym} {words : List (List Char)} :
    x ∈ (buildVocab0 words).map Prod.fst
      ↔ ∃ w ∈ words, x = w.map (fun c => [c]) := by
  unfold buildVocab0
  rw [mem_keys_foldl_aincBy (fun w => w.map (fun c => [c])) words [] x]
  simp

theorem mem_keyString_singletons (c : Char) :
    ∀ (w : List Char), c ∈ keyString (w.map (fun ch => [ch]))
      ↔ c ∈ w ∨ (c = ' ' ∧ 2 ≤ w.length) := by
  intro w
  induction w using twoStepInduction with
  | h0 => simp [keyString, List.intersperse]
  | h1 x => simp [keyString, List.intersperse]
  | h2 x y rest ih ihy =>
    have hkey : keyString ((x :: y :: rest).map (fun ch => [ch]))
        = x :: ' ' :: keyString ((y :: rest).map (fun ch => [ch])) := by
      simp [keyString, List.intersperse]
    rw [hkey]
    simp only [List.mem_cons, List.length_cons]
    rw [show (c ∈ keyString ((y :: rest).map (fun ch => [ch]))) ↔ _ from ihy]
    simp only [List.mem_cons, List.length_cons]
    constructor
    · rintro (h | h | (h | h) | ⟨h1, h2⟩)
      · exact Or.inl (Or.inl h)
      · exact Or.inr ⟨h, by omega⟩
      · exact Or.inl (Or.inr (Or.inl h))
      · exact Or.inl (Or.inr (Or.inr h))
      · exact Or.inr ⟨h1, by omega⟩
    · rintro ((h | h | h) | ⟨h1, _⟩)
      · exact Or.inl h
      · exact Or.inr (Or.inr (Or.inl (Or.inl h)))
      · exact Or.inr (Or.inr (Or.inl (Or.inr h)))
      · exact Or.inr (Or.inl h1)

theorem mem_trainAllChars {texts : List (List Char)} (c : Char) :
    c ∈ trainAllChars texts
      ↔ c ∈ (trainWords texts).flatten
        ∨ (c = ' ' ∧ ∃ w ∈ trainWords texts, 2 ≤ w.length) := by
  unfold trainAllChars
  simp only [List.mem_flatten, List.mem_map]
  constructor
  · rintro ⟨ks, ⟨u, hu, rfl⟩, hc⟩
    have hkey : u.1 ∈ (buildVocab0 (trainWords texts)).map Prod.fst :=
      List.mem_map_of_mem _ hu
    rw [mem_keys_buildVocab0] at hkey
    obtain ⟨w, hw, hw1⟩ := hkey
    rw [hw1, mem_keyString_singletons] at hc
    cases hc with
    | inl h => exact Or.inl ⟨w, hw, h⟩
    | inr h => exact Or.inr ⟨h.1, w, hw, h.2⟩
  · intro h
    have hget : ∀ w ∈ trainWords texts, (c ∈ w ∨ (c = ' ' ∧ 2 ≤ w.length)) →
        ∃ ks, (∃ u ∈ buildVocab0 (trainWords texts), keyString u.1 = ks) ∧ c ∈ ks := by
      intro w hw hcw
      have hx : (w.map (fun ch => [ch])) ∈ (buildVocab0 (trainWords texts)).map Prod.fst :=
        mem_keys_buildVocab0.2 ⟨w, hw, rfl⟩
      obtain ⟨u, hu, hkey⟩ := List.mem_map.1 hx
      refine ⟨keyString u.1, ⟨u, hu, rfl⟩, ?_⟩
      rw [hkey, mem_keyString_singletons]
      exact hcw
    rcases h with ⟨w, hw, hcw⟩ | ⟨hsp, w, hw, hlen⟩
    · exact hget w hw (Or.inl hcw)
    · exact hget w hw (Or.inr ⟨hsp, hlen⟩)

theorem getStats_eq_nil {vocab : List (List Sym × Nat)}
    (h : ∀ u ∈ vocab, u.1.length ≤ 1) : getStats vocab = [] := by
  unfold getStats
  suffices H : ∀ (vc : List (List Sym × Nat)) (acc : List ((Sym × Sym) × Nat)),
      (∀ u ∈ vc, u.1.length ≤ 1) →
      vc.foldl (fun acc u => (pairsOf u.1).foldl (fun a p => aincBy p u.2 a) acc) acc
        = acc from H vocab [] h
  intro vc
  induction vc with
  | nil => intro acc _; rfl
  | cons u rest ih =>
    intro acc hlen
    simp only [List.foldl_cons]
    have hp : pairsOf u.1 = [] := by
      have h1 := hlen u (List.mem_cons_self u rest)
      match hu : u.1 with
      | [] => rfl
      | [x] => rfl
      | x :: y :: r => rw [hu] at h1; simp at h1
    rw [hp]
    exact ih acc (fun v hv => hlen v (List.mem_cons_of_mem u hv))


theorem insertBase_merges (st : BPEState) (cs : List Char) :
    (insertBase st cs).merges = st.merges := by
  unfold insertBase
  generalize cs.enum = l
  induction l generalizing st with
  | nil => rfl
  | cons ic rest ih =>
    simp only [List.foldl_cons]
    exact ih _

theorem insertBase_token_isSome {t : Sym} (st : BPEState) (cs : List Char)
    (h : (alookup t st.token_to_id).isSome = true) :
    (alookup t (insertBase st cs).token_to_id).isSome = true := by
  unfold insertBase
  generalize cs.enum = l
  induction l generalizing st with
  | nil => exact h
  | cons ic rest ih =>
    simp only [List.foldl_cons]
    exact ih _ (alookup_ainsert_isSome h)

theorem trainLoop_merges_isSome {p : Sym × Sym} :
    ∀ (n : Nat) (vocab : List (List Sym × Nat)) (st : BPEState),
      (alookup p st.merges).isSome = true →
      (alookup p (trainLoop n vocab st).merges).isSome = true := by
  intro n
  induction n with
  | zero => intro vocab st h; exact h
  | succ m ih =>
    intro vocab st h
    simp only [trainLoop]
    cases hs : getStats vocab with
    | nil => exact h
    | cons p0 rest =>
      dsimp only
      split <;> try split
      all_goals
        first
          | exact alookup_ainsert_isSome h
          | exact ih _ _ (alookup_ainsert_isSome h)

theorem trainLoop_token_isSome {t : Sym} :
    ∀ (n : Nat) (vocab : List (List Sym × Nat)) (st : BPEState),
      (alookup t st.token_to_id).isSome = true →
      (alookup t (trainLoop n vocab st).token_to_id).isSome = true := by
  intro n
  induction n with
  | zero => intro vocab st h; exact h
  | succ m ih =>
    intro vocab st h
    simp only [trainLoop]
    cases hs : getStats vocab with
    | nil => exact h
    | cons p0 rest =>
      dsimp only
      split <;> try split
      all_goals
        first
          | exact h
          | exact alookup_ainsert_isSome h
          | exact ih _ _ h
          | exact ih _ _ (alookup_ainsert_isSome h)


/-! ### Claim theorems -/

/-- C2: whenever the configured `vocab_size` equals exactly the number
of distinct base characters of the corpus plus the unknown sentinel,
`train` on a fresh tokenizer with any positive `max_merges` performs
zero merges and the merge-rule list remains empty. -/
theorem C2_ceiling_blocks_merges (texts : List (List Char)) (m v : Nat)
    (hv : v = (baseCharsOf texts).dedup.length + 1) (hm : 0 < m) :
    (train (initState v) texts m).merges = [] := by
  have hbase : baseCharsOf texts = (trainWords texts).flatten := rfl
  have hnws : ∀ w ∈ trainWords texts, ∀ c ∈ w, c.isWhitespace = false := by
    intro w hw
    obtain ⟨l, hl, hwl⟩ := List.mem_flatten.1 hw
    obtain ⟨t0, ht0, rfl⟩ := List.mem_map.1 hl
    exact splitWords_no_ws w hwl
  have hsp : (' ' : Char) ∉ (trainWords texts).flatten := by
    intro hsp0
    obtain ⟨w, hw, hc⟩ := List.mem_flatten.1 hsp0
    have := hnws w hw ' ' hc
    simp at this
  unfold train
  have hvs : (initState v).vocab_size = v := rfl
  rw [hvs]
  by_cases hbig : ∃ w ∈ trainWords texts, 2 ≤ w.length
  · have hset : (trainAllChars texts).toFinset
        = insert ' ' ((trainWords texts).flatten.toFinset) := by
      ext c
      simp only [List.mem_toFinset, Finset.mem_insert, mem_trainAllChars]
      constructor
      · rintro (h | ⟨rfl, _⟩)
        · exact Or.inr h
        · exact Or.inl rfl
      · rintro (rfl | h)
        · exact Or.inr ⟨rfl, hbig⟩
        · exact Or.inl h
    have hcard : (trainAllChars texts).dedup.length
        = (trainWords texts).flatten.dedup.length + 1 := by
      rw [← List.card_toFinset, ← List.card_toFinset, hset,
        Finset.card_insert_of_not_mem (by simpa using hsp)]
    have hz : v - (trainAllChars texts).dedup.length = 0 := by
      rw [hbase] at hv
      omega
    rw [hz, Nat.min_zero]
    rw [show ∀ vc st, trainLoop 0 vc st = st from fun _ _ => rfl]
    rw [insertBase_merges]
    rfl
  · have hword1 : ∀ u ∈ buildVocab0 (trainWords texts), u.1.length ≤ 1 := by
      intro u hu
      have hk : u.1 ∈ (buildVocab0 (trainWords texts)).map Prod.fst :=
        List.mem_map_of_mem _ hu
      rw [mem_keys_buildVocab0] at hk
      obtain ⟨w, hw, hw1⟩ := hk
      push_neg at hbig
      have := hbig w hw
      rw [hw1, List.length_map]
      omega
    have hset : (trainAllChars texts).toFinset = (trainWords texts).flatten.toFinset := by
      ext c
      simp only [List.mem_toFinset, mem_trainAllChars]
      constructor
      · rintro (h | ⟨rfl, hw⟩)
        · exact h
        · exact absurd hw hbig
      · exact Or.inl
    have hcard : (trainAllChars texts).dedup.length
        = (trainWords texts).flatten.dedup.length := by
      rw [← List.card_toFinset, ← List.card_toFinset, hset]
    have hone : v - (trainAllChars texts).dedup.length = 1 := by
      rw [hbase] at hv
      omega
    rw [hone]
    have hmin : min m 1 = 1 := by omega
    rw [hmin]
    simp only [trainLoop, getStats_eq_nil hword1]
    rw [insertBase_merges]
    rfl

/-- C2 witness: a corpus with base characters `a`, `b` and configured
`vocab_size` 3 trains with a positive budget to an empty merge list. -/
theorem C2_witness :
    3 = (baseCharsOf [['a', 'a', 'a', 'b']]).dedup.length + 1
    ∧ (train (initState 3) [['a', 'a', 'a', 'b']] 5).merges = [] :=
  ⟨by decide, C2_ceiling_blocks_merges [['a', 'a', 'a', 'b']] 5 3 (by decide) (by decide)⟩


/-- C1: the claim says that training on corpus `["ab"]` with
`max_merges = 0` yields a Vocabulary holding exactly the word characters
`a`, `b` in sorted order with ids 1 and 2 and zero merge rules.  The
code instead also assigns an id to the space character (an artifact of
scanning the space-joined internal keys), so `' '` gets id 1 and `a`
gets id 2: the Vocabulary is not "exactly the distinct single-character
Symbols appearing in the corpus's words" and the ids are shifted. -/
theorem C1_space_artifact :
    alookup [' '] (train (initState 10000) [['a', 'b']] 0).token_to_id = some 1
    ∧ alookup ['a'] (train (initState 10000) [['a', 'b']] 0).token_to_id = some 2
    ∧ alookup ['b'] (train (initState 10000) [['a', 'b']] 0).token_to_id = some 3
    ∧ (' ' ∉ (trainWords [['a', 'b']]).flatten)
    ∧ (train (initState 10000) [['a', 'b']] 0).merges = [] := by
  refine ⟨by decide, by decide, by decide, by decide, by decide⟩

/-- C3: the claim says the ids assigned by a single `train` on a fresh
tokenizer form a contiguous range starting at 0.  On corpus `["aaab"]`
with one merge the code assigns ids 0 (`<UNK>`), 1 (`' '`), 2 (`a`),
3 (`b`) and then gives the merged symbol `aa` the id
`len(token_to_id) + 1 = 5`, so id 4 is skipped: the range has a gap. -/
theorem C3_id_gap :
    alookup 5 (train (initState 10000) [['a', 'a', 'a', 'b']] 1).id_to_token
      = some ['a', 'a']
    ∧ alookup 4 (train (initState 10000) [['a', 'a', 'a', 'b']] 1).id_to_token = none
    ∧ alookup 3 (train (initState 10000) [['a', 'a', 'a', 'b']] 1).id_to_token
      = some ['b']
    ∧ alookup ['a', 'a'] (train (initState 10000) [['a', 'a', 'a', 'b']] 1).token_to_id
      = some 5 := by
  refine ⟨by decide, by decide, by decide, by decide⟩

/-- C7: concrete scenario A.  For corpus `["aaab"]` with
`max_merges = 1`: the pair statistics over the initial split are
`(a,a) = 2` then `(a,b) = 1` (so `(a,a)` is the unique maximum), the
single learned merge rule maps `(a,a)` to the symbol `aa`, and the
rewritten word unit is `["aa", "a", "b"]` with frequency 1. -/
theorem C7_scenarioA :
    getStats (buildVocab0 (trainWords [['a', 'a', 'a', 'b']]))
      = [((['a'], ['a']), 2), ((['a'], ['b']), 1)]
    ∧ (train (initState 10000) [['a', 'a', 'a', 'b']] 1).merges
      = [((['a'], ['a']), ['a', 'a'])]
    ∧ mergeVocab (['a'], ['a']) (buildVocab0 (trainWords [['a', 'a', 'a', 'b']]))
      = [([['a', 'a'], ['a'], ['b']], 1)] := by
  refine ⟨by decide, by decide, by decide⟩

/-- C4 counterexample: the claim says a second `train` resets and
relearns from scratch, leaving the same state as a single fresh
`train` on the second corpus.  But `train` never clears
`token_to_id`/`id_to_token`/`merges`: after training on `["a"]` and
then `["b"]`, the vocabulary still holds the stale entry `a ↦ 1`
alongside `b ↦ 1`, while a fresh train on `["b"]` holds only `b ↦ 1`. -/
theorem C4_counterexample :
    (train (train (initState 10000) [['a']] 0) [['b']] 0).token_to_id
      ≠ (train (initState 10000) [['b']] 0).token_to_id := by
  decide

/-- C4 amended: a second call to `train` does not reset the trained
state; training accumulates onto it.  In particular every merge rule
and every vocabulary token present before the call is still present
(as a key) after any further `train` call. -/
theorem C4_amended (st : BPEState) (texts : List (List Char)) (m : Nat)
    (p : Sym × Sym) (t : Sym)
    (h1 : (alookup p st.merges).isSome = true)
    (h2 : (alookup t st.token_to_id).isSome = true) :
    (alookup p (train st texts m).merges).isSome = true
    ∧ (alookup t (train st texts m).token_to_id).isSome = true := by
  unfold train
  constructor
  · refine trainLoop_merges_isSome _ _ _ ?_
    rw [insertBase_merges]
    exact h1
  · exact trainLoop_token_isSome _ _ _ (insertBase_token_isSome st _ h2)

/-- C4 amended witness: the merge rule `(a,a)` and the token `a` learned
from `["aa"]` survive a later `train` on `["b"]`. -/
theorem C4_amended_witness :
    (alookup ((['a'], ['a']))
        (train (train (initState 10000) [['a', 'a']] 1) [['b']] 1).merges).isSome = true
    ∧ (alookup ['a']
        (train (train (initState 10000) [['a', 'a']] 1) [['b']] 1).token_to_id).isSome
        = true :=
  C4_amended (train (initState 10000) [['a', 'a']] 1) [['b']] 1 (['a'], ['a']) ['a']
    (by decide) (by decide)


theorem segmentWord_succ_of_some {merges : List ((Sym × Sym) × Sym)} {toks : List Sym}
    {i : Nat} {r : Sym} (hf : findMatch merges toks = some i)
    (hr : alookup (pairAt toks i) merges = some r) (n : Nat) :
    segmentWord merges (n + 1) toks = segmentWord merges n (mergeAt r i toks) := by
  simp only [segmentWord, hf]
  have hx : alookup (toks.getD i [], toks.getD (i + 1) []) merges = some r := by
    simpa [pairAt] using hr
  rw [hx]
  rfl

theorem decomp_two :
    ∀ {i : Nat} {toks : List Sym}, i + 1 < toks.length →
      toks = toks.take i ++ toks.getD i [] :: toks.getD (i + 1) [] :: toks.drop (i + 2) := by
  intro i
  induction i with
  | zero =>
    intro toks h
    match toks with
    | [] => simp at h
    | [x] => simp at h
    | x :: y :: rest => simp
  | succ n ih =>
    intro toks h
    match toks with
    | [] => simp at h
    | x :: rest =>
      simp only [List.length_cons] at h
      have := @ih rest (by omega)
      conv_lhs => rw [this]
      simp [List.getD_cons_succ]

theorem singletons_flatten (w : List Char) :
    (w.map (fun c => [c])).flatten = w := by
  induction w with
  | nil => rfl
  | cons c rest ih => simp [ih]

theorem segmentWord_flatten {merges : List ((Sym × Sym) × Sym)}
    (hm : ∀ e ∈ merges, e.2 = e.1.1 ++ e.1.2) :
    ∀ (fuel : Nat) (toks : List Sym),
      (segmentWord merges fuel toks).flatten = toks.flatten := by
  intro fuel
  induction fuel with
  | zero => intro toks; rfl
  | succ n ih =>
    intro toks
    cases hf : findMatch merges toks with
    | none => simp [segmentWord, hf]
    | some i =>
      obtain ⟨hmi, -⟩ := findMatch_some hf
      obtain ⟨r, hr⟩ := Option.isSome_iff_exists.1 hmi.2
      rw [segmentWord_succ_of_some hf hr n, ih]
      rw [mergeAt_eq hmi.1]
      have hrepl : r = (toks.getD i []) ++ (toks.getD (i + 1) []) := by
        have := hm _ (alookup_mem hr)
        simpa [pairAt] using this
      conv_rhs => rw [decomp_two hmi.1]
      simp [hrepl, List.append_assoc]

theorem tokenize_flatten {st : BPEState}
    (hm : ∀ e ∈ st.merges, e.2 = e.1.1 ++ e.1.2) (text : List Char) :
    (tokenize st text).flatten = (splitWords text).flatten := by
  unfold tokenize
  generalize splitWords text = ws
  induction ws with
  | nil => rfl
  | cons w rest ih =>
    simp only [List.map_cons, List.flatten_cons, List.flatten_append]
    rw [ih]
    congr 1
    rw [segmentWord_flatten hm]
    exact singletons_flatten w


/-- C5: for every trained state and every whitespace-delimited word of
the input, `tokenize` starts from the word's characters and repeatedly
merges at the leftmost position whose adjacent pair matches some merge
rule (regardless of rank), restarting after each merge and stopping when
no pair matches (the relation `SegRel`); the output is the words' final
symbol sequences concatenated in original word order. -/
theorem C5_segmenter (st : BPEState) (text : List Char) :
    tokenize st text
      = ((splitWords text).map
          (fun w => segmentWord st.merges w.length (w.map (fun c => [c])))).flatten
    ∧ ∀ w ∈ splitWords text,
        SegRel st.merges (w.map (fun c => [c]))
          (segmentWord st.merges w.length (w.map (fun c => [c]))) := by
  refine ⟨rfl, ?_⟩
  intro w hw
  refine segmentWord_segRel w.length (w.map (fun c => [c])) ?_
  rw [List.length_map]
  omega

/-- C5 witness: on the tokenizer trained on `["ab"]` with one merge, the
word `ab` is segmented from `[a, b]` to `[ab]` following the spec's
leftmost-match loop. -/
theorem C5_witness :
    SegRel (train (initState 10000) [['a', 'b']] 1).merges [['a'], ['b']]
      [['a', 'b']] :=
  (C5_segmenter (train (initState 10000) [['a', 'b']] 1) ['a', 'b']).2
    ['a', 'b'] (by decide)

/-- C6: on any word-unit collection whose units have pairwise distinct
surface strings, the corpus rewriter keeps every unit with its frequency
unchanged and rewrites its symbol sequence by the non-overlapping
left-to-right scan; the rewritten symbol count never increases, and
strictly decreases for units in which the selected pair occurs
adjacently. -/
theorem C6_rewriter (p : Sym × Sym) (vocab : List (List Sym × Nat))
    (h : (vocab.map (fun u => u.1.flatten)).Nodup) :
    mergeVocab p vocab
      = vocab.map (fun u => (mergeParts p.1 p.2 (p.1 ++ p.2) u.1, u.2))
    ∧ ∀ u ∈ vocab,
        (mergeParts p.1 p.2 (p.1 ++ p.2) u.1).length ≤ u.1.length
        ∧ ((∃ i, OccursAt p.1 p.2 u.1 i) →
            (mergeParts p.1 p.2 (p.1 ++ p.2) u.1).length < u.1.length) := by
  constructor
  · apply mergeVocab_eq_map
    have hmapeq : vocab.map (fun u => (mergeParts p.1 p.2 (p.1 ++ p.2) u.1).flatten)
        = vocab.map (fun u => u.1.flatten) :=
      List.map_congr_left (fun u _ => mergeParts_flatten p.1 p.2 u.1)
    have h2 : (vocab.map
        (fun u => (mergeParts p.1 p.2 (p.1 ++ p.2) u.1).flatten)).Nodup := by
      rw [hmapeq]
      exact h
    have h3 : ((vocab.map (fun u => mergeParts p.1 p.2 (p.1 ++ p.2) u.1)).map
        List.flatten).Nodup := by
      rw [List.map_map]
      exact h2
    exact h3.of_map _
  · intro u hu
    exact ⟨length_mergeParts _ _ _ _, fun hocc => mergeParts_strict _ _ _ hocc⟩

/-- C6 witness: rewriting the unit `a a a b` (frequency 1) with the pair
`(a, a)` yields `aa a b` with frequency 1, and its symbol count strictly
decreased from 4 to 3. -/
theorem C6_witness :
    mergeVocab (['a'], ['a']) [([['a'], ['a'], ['a'], ['b']], 1)]
      = [([['a', 'a'], ['a'], ['b']], 1)]
    ∧ (mergeParts ['a'] ['a'] (['a'] ++ ['a']) [['a'], ['a'], ['a'], ['b']]).length
      < ([['a'], ['a'], ['a'], ['b']] : List Sym).length := by
  have h := C6_rewriter (['a'], ['a']) [([['a'], ['a'], ['a'], ['b']], 1)] (by decide)
  refine ⟨?_, ?_⟩
  · rw [h.1]
    decide
  · exact (h.2 ([['a'], ['a'], ['a'], ['b']], 1) (by decide)).2
      ⟨0, by decide, by decide, by decide⟩

/-- C8: `encode` substitutes the reserved unknown id for any produced
symbol absent from the vocabulary, and `decode` substitutes the literal
`<UNK>` marker for any id absent from the vocabulary; both are total
functions (every position gets a value, nothing is raised). -/
theorem C8_unknown_substitution (st : BPEState) (text : List Char) (ids : List Nat)
    (i j : Nat) (hi : i < (tokenize st text).length) (hj : j < ids.length)
    (h1 : alookup ((tokenize st text).getD i []) st.token_to_id = none)
    (h2 : alookup (ids.getD j 0) st.id_to_token = none) :
    (encode st text).getD i (st.unk_id + 1) = st.unk_id
    ∧ (decodedSyms st ids).getD j [] = unkSym
    ∧ (encode st text).length = (tokenize st text).length
    ∧ decode st ids = (decodedSyms st ids).flatten := by
  refine ⟨?_, ?_, by simp [encode], rfl⟩
  · have hEl : (tokenize st text).getD i [] = (tokenize st text)[i] := by
      rw [List.getD_eq_getElem?_getD, List.getElem?_eq_getElem hi, Option.getD_some]
    rw [hEl] at h1
    unfold encode
    rw [List.getD_eq_getElem?_getD, List.getElem?_map, List.getElem?_eq_getElem hi]
    simp [h1]
  · have hEl : ids.getD j 0 = ids[j] := by
      rw [List.getD_eq_getElem?_getD, List.getElem?_eq_getElem hj, Option.getD_some]
    rw [hEl] at h2
    unfold decodedSyms
    rw [List.getD_eq_getElem?_getD, List.getElem?_map, List.getElem?_eq_getElem hj]
    simp [h2]

/-- C8 witness: on the tokenizer trained on `["a"]`, encoding the unseen
character `z` yields the unknown id 0, and decoding the unmapped id 7
yields the `<UNK>` marker. -/
theorem C8_witness :
    (encode (train (initState 10000) [['a']] 0) ['z']).getD 0
        ((train (initState 10000) [['a']] 0).unk_id + 1)
      = (train (initState 10000) [['a']] 0).unk_id
    ∧ (decodedSyms (train (initState 10000) [['a']] 0) [7]).getD 0 [] = unkSym :=
  ⟨(C8_unknown_substitution (train (initState 10000) [['a']] 0) ['z'] [7] 0 0
      (by decide) (by decide) (by decide) (by decide)).1,
   (C8_unknown_substitution (train (initState 10000) [['a']] 0) ['z'] [7] 0 0
      (by decide) (by decide) (by decide) (by decide)).2.1⟩

/-- C9: on a trained state (merge values are the concatenations of their
pairs) and a text all of whose produced tokens round-trip through the
vocabulary, `decode (encode text)` equals the concatenation of the
text's whitespace-delimited words with no separator; hence it differs
from `text` whenever `text` contains two or more words. -/
theorem C9_roundtrip (st : BPEState) (text : List Char)
    (hm : ∀ e ∈ st.merges, e.2 = e.1.1 ++ e.1.2)
    (ht : ∀ t ∈ tokenize st text,
      alookup ((alookup t st.token_to_id).getD st.unk_id) st.id_to_token = some t) :
    decode st (encode st text) = (splitWords text).flatten
    ∧ (2 ≤ (splitWords text).length → decode st (encode st text) ≠ text) := by
  have hde : decode st (encode st text) = (tokenize st text).flatten := by
    unfold decode decodedSyms encode
    rw [List.map_map]
    have hcongr : (tokenize st text).map
        ((fun k => (alookup k st.id_to_token).getD unkSym) ∘
          (fun t => (alookup t st.token_to_id).getD st.unk_id))
        = (tokenize st text).map id := by
      refine List.map_congr_left ?_
      intro t htok
      show (alookup ((alookup t st.token_to_id).getD st.unk_id) st.id_to_token).getD
          unkSym = t
      rw [ht t htok]
      rfl
    rw [hcongr, List.map_id]
  rw [hde, tokenize_flatten hm]
  refine ⟨rfl, ?_⟩
  intro h2 heq
  obtain ⟨c, hct, hcw⟩ := exists_ws_of_two_words h2
  rw [splitWords_flatten] at heq
  have hlt : (text.filter (fun c => !c.isWhitespace)).length < text.length := by
    refine List.length_filter_lt_length_iff_exists.2 ⟨c, hct, ?_⟩
    simp [hcw]
  have hlen := congrArg List.length heq
  omega

/-- C9 witness: on the tokenizer trained on `["ab"]`,
`decode (encode "a b")` is `"ab"`, the two words concatenated with the
inter-word space removed, and differs from the original text. -/
theorem C9_witness :
    decode (train (initState 10000) [['a', 'b']] 0)
        (encode (train (initState 10000) [['a', 'b']] 0) ['a', ' ', 'b'])
      = (splitWords ['a', ' ', 'b']).flatten
    ∧ decode (train (initState 10000) [['a', 'b']] 0)
        (encode (train (initState 10000) [['a', 'b']] 0) ['a', ' ', 'b'])
      ≠ ['a', ' ', 'b'] := by
  have h := C9_roundtrip (train (initState 10000) [['a', 'b']] 0) ['a', ' ', 'b']
    (by decide) (by decide)
  exact ⟨h.1, h.2 (by decide)⟩

/-- C10: `tokenize` terminates: every applied merge shortens the word's
symbol sequence by exactly one symbol, and the per-word loop run with
fuel equal to the word length (at least its length minus one iterations)
reaches a sequence in which no adjacent pair matches any rule. -/
theorem C10_termination (merges : List ((Sym × Sym) × Sym)) (w : List Char)
    (toks : List Sym) (i : Nat) (h : findMatch merges toks = some i) :
    (mergeAt ((alookup (pairAt toks i) merges).getD []) i toks).length + 1
      = toks.length
    ∧ findMatch merges (segmentWord merges w.length (w.map (fun c => [c]))) = none := by
  refine ⟨length_mergeAt (findMatch_some h).1.1, ?_⟩
  refine segmentWord_fixpoint w.length _ ?_
  rw [List.length_map]
  omega

/-- C10 witness: with the single rule `(a, b) → ab`, the merge at the
matched position shortens `[a, b]` from two symbols to one, and the loop
on the word `ab` ends with no matching adjacent pair. -/
theorem C10_witness :
    (mergeAt ((alookup (pairAt [['a'], ['b']] 0) [((['a'], ['b']), ['a', 'b'])]).getD [])
        0 [['a'], ['b']]).length + 1 = ([['a'], ['b']] : List Sym).length
    ∧ findMatch [((['a'], ['b']), ['a', 'b'])]
        (segmentWord [((['a'], ['b']), ['a', 'b'])] (['a', 'b'] : List Char).length
          ((['a', 'b'] : List Char).map (fun c => [c]))) = none :=
  C10_termination [((['a'], ['b']), ['a', 'b'])] ['a', 'b'] [['a'], ['b']] 0 (by decide)

end BPE
